import Mathlib

/-!
Verification development for the `wp_audio_trigger` add-on
(`src/wp_audio_trigger/wp_audio_trigger.py`).

Shallow embedding conventions:
* Python floats coming from configuration and level arithmetic are modelled as `ℚ`
  (the control/recording logic only adds, compares and slices them);
* the transcendental parts (`math.log10`, numpy `log10`, one-decimal rounding of
  real values) are modelled over `ℝ` with `Real.logb 10`;
* Python `deque(maxlen=m)` is modelled by `appendMax` (append right, evict left);
* Python slices `l[i:]` and `l[-m:]` are modelled by `pySliceFrom` / `pySliceLast`
  with Python's exact semantics (`l[-0:]` is the whole list);
* audio blocks and level snapshots are opaque identifiers (`ℕ`): the recording
  state machine only moves them between buffers and never inspects samples;
* the per-block A-weighted levels (`LA` dict) and the published `sum_level` are
  inputs to each loop cycle, as the trigger logic only reads them;
* wall-clock timestamps (`now_utc`, `time.time`) are modelled by the block index,
  one block per loop cycle (the loop runs at one block per block duration).
-/

set_option maxRecDepth 200000

namespace WpAudio

/-- Last `n` elements of a list (`collections.deque` content after eviction). -/
def lastN (n : ℕ) (l : List α) : List α := l.drop (l.length - n)

/-- Python `deque(maxlen = m).append(x)`: append right, evict oldest from the left. -/
def appendMax (m : ℕ) (l : List α) (x : α) : List α := lastN m (l ++ [x])

/-- Python `l[i:]` for a nonnegative index `i` (empty when `i ≥ len(l)`). -/
def pySliceFrom (i : ℕ) (l : List α) : List α := l.drop i

/-- Python `l[-m:]`: the last `m` elements, except that `l[-0:]` is all of `l`. -/
def pySliceLast (m : ℕ) (l : List α) : List α := if m = 0 then l else lastN m l

/-- Python `int(q)` for a nonnegative rational: truncation toward zero. -/
def pyInt (q : ℚ) : ℕ := ⌊q⌋.toNat

/-- Python 3 `round(q)`: round half to even (banker's rounding). -/
def pyRound (q : ℚ) : ℤ :=
  if q - ⌊q⌋ < 1/2 then ⌊q⌋
  else if 1/2 < q - ⌊q⌋ then ⌊q⌋ + 1
  else if 2 ∣ ⌊q⌋ then ⌊q⌋ else ⌊q⌋ + 1

/-- Model of `np.mean` of a list of rationals (callers guard the empty case). -/
def meanQ (l : List ℚ) : ℚ := l.sum / l.length

/-- Python `max(l)` on a nonempty list of rationals. -/
def qListMax : List ℚ → ℚ
  | [] => 0
  | x :: l => l.foldl max x

/-- Python `min(l)` on a nonempty list of rationals. -/
def qListMin : List ℚ → ℚ
  | [] => 0
  | x :: l => l.foldl min x

/-! ## FilterBank: per-band SOS filtering (claim C5)

The source filters every block with `y = sosfilt(sos, x)` (lines 1104-1108 and
1127-1128), never passing or keeping the `zi` state vector between blocks.
`scipy.signal.sosfilt` applies a cascade of second-order sections in
direct-form II transposed; with no `zi` argument every call starts from zero
internal state.  The model below embeds that library semantics with rational
coefficients and samples. -/

/-- One second-order section, normalized so that `a0 = 1`
(as produced by `scipy.signal.butter(..., output='sos')`). -/
structure SOS where
  b0 : ℚ
  b1 : ℚ
  b2 : ℚ
  a1 : ℚ
  a2 : ℚ
deriving DecidableEq, Repr

/-- One sample through one section, direct-form II transposed
(the recurrence scipy's `sosfilt` implements). -/
def sosStep (s : SOS) (st : ℚ × ℚ) (x : ℚ) : ℚ × (ℚ × ℚ) :=
  let y := s.b0 * x + st.1
  (y, (s.b1 * x - s.a1 * y + st.2, s.b2 * x - s.a2 * y))

/-- One section over a block, threading the two delay-line registers. -/
def sosRun (s : SOS) (st : ℚ × ℚ) : List ℚ → List ℚ × (ℚ × ℚ)
  | [] => ([], st)
  | x :: xs =>
    let r := sosStep s st x
    let rest := sosRun s r.2 xs
    (r.1 :: rest.1, rest.2)

/-- Model of `scipy.signal.sosfilt(sos, x)` with the default zero initial conditions:
each section is run over the whole block starting from state `(0, 0)`. -/
def sosfilt (secs : List SOS) (xs : List ℚ) : List ℚ :=
  secs.foldl (fun acc s => (sosRun s (0, 0) acc).1) xs

/-- The main loop's per-band filtering of a sequence of blocks: every iteration
calls `sosfilt` afresh on the current block (source line 1105), so no filter
state survives from one block to the next. -/
def filterBlocks (secs : List SOS) (blocks : List (List ℚ)) : List (List ℚ) :=
  blocks.map (sosfilt secs)

theorem sosRun_append (s : SOS) (st : ℚ × ℚ) (xs ys : List ℚ) :
    sosRun s st (xs ++ ys) =
      ((sosRun s st xs).1 ++ (sosRun s (sosRun s st xs).2 ys).1,
        (sosRun s (sosRun s st xs).2 ys).2) := by
  induction xs generalizing st with
  | nil => simp [sosRun]
  | cons x xs ih => simp [sosRun, ih]

theorem sosRun_length (s : SOS) (st : ℚ × ℚ) (xs : List ℚ) :
    (sosRun s st xs).1.length = xs.length := by
  induction xs generalizing st with
  | nil => rfl
  | cons x xs ih => simp [sosRun, ih]

theorem sosfilt_cons (s : SOS) (secs : List SOS) (xs : List ℚ) :
    sosfilt (s :: secs) xs = sosfilt secs ((sosRun s (0, 0) xs).1) := rfl

theorem sosfilt_length (secs : List SOS) (xs : List ℚ) :
    (sosfilt secs xs).length = xs.length := by
  induction secs generalizing xs with
  | nil => rfl
  | cons s secs ih => rw [sosfilt_cons, ih, sosRun_length]

theorem sosfilt_append_take (secs : List SOS) (xs ys : List ℚ) :
    (sosfilt secs (xs ++ ys)).take xs.length = sosfilt secs xs := by
  induction secs generalizing xs ys with
  | nil => simp [sosfilt]
  | cons s secs ih =>
    have hlen : (sosRun s (0, 0) xs).1.length = xs.length := sosRun_length s (0, 0) xs
    rw [sosfilt_cons, sosfilt_cons, sosRun_append]
    rw [← hlen]
    exact ih ((sosRun s (0, 0) xs).1) ((sosRun s (sosRun s (0, 0) xs).2 ys).1)

/-- C5 counterexample: as stated the claim is false.  For the section
`y[n] = x[n-1]` (a one-sample delay, `b = [0,1,0]`, `a = [1,0,0]`) and the
consecutive blocks `[1]` and `[0]`, the code's per-block filtering (fresh zero
state per `sosfilt` call, source line 1105) yields `[0]` then `[0]`, while
filtering the concatenation `[1, 0]` in one call yields `[0, 1]`: the delay
line does not persist across blocks, so the second block's output differs. -/
theorem C5_counterexample :
    filterBlocks [⟨0, 1, 0, 0, 0⟩] [[1], [0]] = [[0], [0]] ∧
      sosfilt [⟨0, 1, 0, 0, 0⟩] ([1] ++ [0]) = [0, 1] ∧
      [(0 : ℚ)] ++ [0] ≠ [0, 1] := by
  refine ⟨?_, ?_, ?_⟩ <;> norm_num [filterBlocks, sosfilt, sosRun, sosStep]

/-- C5 amended: per-band filtering is stateless per block.  Every block in the
main loop is filtered by a fresh `sosfilt` call starting from zero internal
state, so (i) the per-block outputs are exactly the zero-state filterings of the
individual blocks, and (ii) only the first block's samples are guaranteed to
agree with filtering the concatenation of two consecutive blocks in a single
call (they do, since both start from zero state); the remaining samples agree
only when the filter state carried out of the first block happens to be zero,
which the counterexample shows is not the general case. -/
theorem C5_amended (secs : List SOS) (b1 b2 : List ℚ) :
    filterBlocks secs [b1, b2] = [sosfilt secs b1, sosfilt secs b2] ∧
      (sosfilt secs (b1 ++ b2)).take b1.length = sosfilt secs b1 := by
  exact ⟨rfl, sosfilt_append_take secs b1 b2⟩

/-! ## TriggerEvaluator and EventRecorder: the main loop's control state

Embedding of the main loop's per-block control logic (source lines 1096-1401):
ring-buffer maintenance, the dynamic trigger evaluation `for` loop including its
stale / unbound Python local `is_triggered`, the prominent-frequency window, the
AND/OR combination, hold accumulation, and the event recording state machine
with `end_event`.  Audio blocks and level snapshots are identified by their
cycle index; wall-clock time during the processing of cycle `k` is `k·block_sec`.
The telemetry publish path (lines 1125-1184) only feeds this logic through
`latest_payload["sum_level"]`, which is an input here; it is modelled separately
below for claim C9. -/

/-- The `freq` field of a configured trigger row: blank (disabled), the literal
`"sum"`, or a band-center frequency. -/
inductive FreqSel
  | blank
  | sum
  | band (f : ℚ)
deriving DecidableEq, Repr

/-- One of the four simple trigger rows (`freq`, `amp`, `duration`). -/
structure TrigSpec where
  freq : FreqSel
  amp : ℚ
  dur : ℚ
deriving DecidableEq, Repr

/-- The AND/OR combination selector. -/
inductive Logic
  | AND
  | OR
deriving DecidableEq, Repr

/-- The prominent-frequency trigger row (`freq1`, `freq2`, `duration`). -/
structure PromCfg where
  freq1 : Option ℚ
  freq2 : Option ℚ
  dur : ℚ
deriving DecidableEq, Repr

/-- The analyzer configuration the loop reads each cycle.  `blockSec` is
`block_sec = args.spectrum_interval` (the publish interval), `pre` is the UI
`preBuffer`; `recLength` is the UI recording length, which the loop reads at
line 1342 but never uses afterwards. -/
structure Config where
  blockSec : ℚ
  pre : ℚ
  triggers : List TrigSpec
  logic : Logic
  prom : PromCfg
  recLength : ℚ
deriving DecidableEq, Repr

/-- The constant `args.post = 30` — the post-trigger time is hardcoded at source line 748,
overwriting the `preBuffer`-derived value assigned on the line before. -/
def postSec : ℚ := 30

/-- The constant `args.hold_sec = 2` — the fallback hold duration (source line 749). -/
def holdSecDef : ℚ := 2

/-- The `maxlen` of `pre_buf` and `spec_buf`: `max(1, int(args.pre/block_sec))`. -/
def preMaxLen (cfg : Config) : ℕ := max 1 (pyInt (cfg.pre / cfg.blockSec))

/-- The `maxlen` of the post buffers: `max(1, int(args.post/block_sec))`. -/
def postMaxLen (cfg : Config) : ℕ := max 1 (pyInt (postSec / cfg.blockSec))

/-- The `maxlen` of `main.prominent_buffer`: `max(1, int(prom_dur/block_sec))`. -/
def promMaxLen (cfg : Config) : ℕ := max 1 (pyInt (cfg.prom.dur / cfg.blockSec))

/-- The list `prom_freq_vals` (source lines 1282-1289): `freq1` if set, then `freq2` if
set and different from `freq1`. -/
def promVals (p : PromCfg) : List ℚ :=
  (match p.freq1 with
    | some f => [f]
    | none => []) ++
  (match p.freq2, p.freq1 with
    | some g, some f => if g = f then [] else [g]
    | some g, none => [g]
    | none, _ => [])

/-- Lookup in the per-block `LA` dict (band center → A-weighted level). -/
def laGet : List (ℚ × ℚ) → ℚ → Option ℚ
  | [], _ => none
  | p :: l, f => if p.1 = f then some p.2 else laGet l f

/-- The flag `is_prominent` (source lines 1294-1298): some selected frequency is present
and carries the strictly largest level among all other bands. -/
def isProminent (la : List (ℚ × ℚ)) (vals : List ℚ) : Bool :=
  vals.any fun pf =>
    match laGet la pf with
    | none => false
    | some v => la.all fun q => q.1 = pf || decide (q.2 < v)

/-- Key of an entry of the `trigger_states` dict / of the `frequency` column of
a trigger-log row: the literal `"sum"` or a band frequency. -/
inductive TKey
  | sum
  | band (f : ℚ)
deriving DecidableEq, Repr

/-- One row of `trigger_log`: activation time, source, activation level
(rounded to 2 decimals) and duration (rounded to 2 decimals). -/
structure LogEntry where
  time : ℚ
  key : TKey
  amp : ℚ
  dur : ℚ
deriving DecidableEq, Repr

/-- One entry of `trigger_states`: an active trigger's start time and level. -/
structure TrigState where
  key : TKey
  startTime : ℚ
  startAmp : ℚ
deriving DecidableEq, Repr

/-- Python `round(q, 2)` (banker's rounding at two decimals). -/
def round2 (q : ℚ) : ℚ := (pyRound (q * 100) : ℚ) / 100

def tsMem (k : TKey) (l : List TrigState) : Bool := l.any fun s => s.key = k

def tsFind (k : TKey) : List TrigState → Option TrigState
  | [] => none
  | s :: l => if s.key = k then some s else tsFind k l

def tsRemove (k : TKey) : List TrigState → List TrigState
  | [] => []
  | s :: l => if s.key = k then l else s :: tsRemove k l

/-- The state threaded through the trigger-evaluation `for` loop:
`trigger_results`, `trigger_states`, `trigger_log`, and the Python local
`is_triggered`, which is `none` while still unbound and otherwise keeps the
value assigned by the last branch that assigned it (possibly a previous
iteration — the unresolvable-frequency branch reads it without assigning). -/
structure EvalSt where
  results : List Bool
  states : List TrigState
  log : List LogEntry
  stale : Option Bool
deriving DecidableEq, Repr

/-- Exceptions the evaluation loop can raise: reading the unbound local
`is_triggered`, or `LA[freq_val]` for a frequency absent from `LA`. -/
inductive Crash
  | unboundLocal
  | keyError
deriving DecidableEq, Repr

/-- Per-trigger state tracking (source lines 1217-1239 / 1253-1275): on `True`
with no active entry, start one; on `False` with an active entry, append a
trigger-log row and delete the entry. -/
def trackKey (now : ℚ) (k : TKey) (it : Bool) (ampNow : ℚ) (st : EvalSt) : EvalSt :=
  if it then
    if tsMem k st.states then st
    else { st with states := st.states ++ [⟨k, now, ampNow⟩] }
  else
    match tsFind k st.states with
    | none => st
    | some s0 =>
      { st with
        log := st.log ++ [⟨s0.startTime, k, round2 s0.startAmp, round2 (now - s0.startTime)⟩],
        states := tsRemove k st.states }

/-- One iteration of the trigger `for` loop (source lines 1205-1275).  A row is
skipped unless `freq` is set and `amp > 0`.  A `sum` row compares the published
`sum_level` (when one exists) against the threshold.  A band row whose
frequency resolves in `LA` compares its level; one that does not resolve prints
a warning, appends no result, and then runs the state-tracking code against the
stale `is_triggered` local: unbound → `UnboundLocalError`; stale `True` with no
active entry → `KeyError` on `LA[freq_val]`; stale `False` → a spurious
trigger-log row if an active entry exists. -/
def evalSpec (now : ℚ) (la : List (ℚ × ℚ)) (sumLevel : Option ℚ) (st : EvalSt)
    (t : TrigSpec) : Except Crash EvalSt :=
  match t.freq with
  | .blank => .ok st
  | .sum =>
    if 0 < t.amp then
      let it := match sumLevel with
        | some s => decide (t.amp ≤ s)
        | none => false
      let st1 : EvalSt := { st with results := st.results ++ [it], stale := some it }
      .ok (trackKey now .sum it (sumLevel.getD 0) st1)
    else .ok st
  | .band f =>
    if 0 < t.amp then
      match laGet la f with
      | some v =>
        let it := decide (t.amp ≤ v)
        let st1 : EvalSt := { st with results := st.results ++ [it], stale := some it }
        .ok (trackKey now (.band f) it v st1)
      | none =>
        match st.stale with
        | none => .error .unboundLocal
        | some true =>
          if tsMem (.band f) st.states then .ok st else .error .keyError
        | some false =>
          match tsFind (.band f) st.states with
          | none => .ok st
          | some s0 => .ok { st with
              log := st.log ++
                [⟨s0.startTime, .band f, round2 s0.startAmp, round2 (now - s0.startTime)⟩],
              states := tsRemove (.band f) st.states }
    else .ok st

/-- The whole trigger `for` loop over the configured rows. -/
def evalSimple (now : ℚ) (la : List (ℚ × ℚ)) (sumLevel : Option ℚ) :
    List TrigSpec → EvalSt → Except Crash EvalSt
  | [], st => .ok st
  | t :: ts, st =>
    match evalSpec now la sumLevel st t with
    | .error e => .error e
    | .ok st1 => evalSimple now la sumLevel ts st1

/-- The count `active_trigger_count` (source line 1203): simple rows with a set `freq`
and `amp > 0`.  The prominent trigger is not counted. -/
def activeTriggerCount (ts : List TrigSpec) : ℕ :=
  (ts.filter fun t => t.freq ≠ FreqSel.blank ∧ 0 < t.amp).length

/-- Combination (source lines 1307-1314): always false with zero counted
triggers, otherwise `all`/`any` over the collected results (false when the
result list is empty). -/
def combineResults (count : ℕ) (logic : Logic) (results : List Bool) : Bool :=
  if count = 0 then false
  else
    match logic with
    | .AND => if results = [] then false else results.all id
    | .OR => if results = [] then false else results.any id

/-- A row contributes its `duration` to the required-hold computation
(source lines 1320-1327) when `amp > 0` and its `freq` is `"sum"` or a
nonnegative decimal numeral (the `str(freq).replace('.','',1).isdigit()` test). -/
def durationEligible (t : TrigSpec) : Bool :=
  decide (0 < t.amp) &&
    match t.freq with
    | .sum => true
    | .band f => decide (0 ≤ f)
    | .blank => false

/-- The value `required_duration` (source lines 1319-1332): `max` of the eligible
durations under AND, `min` of the positive ones under OR, falling back to
`args.hold_sec = 2`. -/
def requiredDuration (ts : List TrigSpec) (logic : Logic) : ℚ :=
  let ds := (ts.filter durationEligible).map (fun t => t.dur)
  if ds = [] then holdSecDef
  else
    match logic with
    | .AND => qListMax ds
    | .OR =>
      if ds.any (fun d => decide (0 < d)) then qListMin (ds.filter (fun d => decide (0 < d)))
      else holdSecDef

/-- The record `end_event` produces (source lines 945-1037), restricted to the
fields the control flow and the claims touch: event id (start timestamp),
audio block ids, level snapshot ids, trigger log, `actual_duration`, and the
recorded block count (`len(event_specs)`). -/
structure EventRecord where
  dir : ℚ
  audio : List ℕ
  specs : List ℕ
  log : List LogEntry
  actualDuration : ℚ
  recordedBlocks : ℕ
deriving DecidableEq, Repr

/-- The loop's mutable state: the four ring buffers, the prominence window, the
trigger-evaluation dict/log/local, and the recording dictionary `S`. -/
structure LoopState where
  preBuf : List ℕ
  specBuf : List ℕ
  postBufA : List ℕ
  postBufS : List ℕ
  promBuf : List Bool
  evalStates : List TrigState
  stale : Option Bool
  triggerLog : List LogEntry
  trig : Bool
  hold : ℚ
  postLeft : ℚ
  holdStartIdx : Option ℕ
  holdStartTime : Option ℚ
  eventAudio : List ℕ
  eventSpecs : List ℕ
  curDir : Option ℚ
  eventStartTime : Option ℚ
  actualDuration : ℚ
  recordingStopped : Bool
  finalized : List EventRecord
deriving DecidableEq, Repr

/-- Initial state (source lines 923-937): empty buffers, `S` as initialized. -/
def initState : LoopState :=
  ⟨[], [], [], [], [], [], none, [], false, 0, 0, none, none, [], [], none, none, 0, false, []⟩

/-- Per-cycle input: the `LA` dict computed from the block, and the
`latest_payload.get("sum_level")` value (absent before the first publish). -/
structure BlockInput where
  la : List (ℚ × ℚ)
  sumLevel : Option ℚ
deriving DecidableEq, Repr

/-- Model of `end_event` (source lines 945-1037): a no-op unless `cur_dir` is set;
otherwise emit the event record, clear `trigger_log`, and reset `S` per the
`S.update` on line 1037 (note: `hold`, `post_left` and the ring buffers are
not touched). -/
def endEvent (st : LoopState) : LoopState :=
  match st.curDir with
  | none => st
  | some d =>
    { st with
      finalized := st.finalized ++
        [⟨d, st.eventAudio, st.eventSpecs, st.triggerLog, st.actualDuration,
          st.eventSpecs.length⟩],
      triggerLog := [],
      trig := false,
      curDir := none,
      eventAudio := [],
      eventSpecs := [],
      eventStartTime := none,
      actualDuration := 0,
      recordingStopped := false }

/-- One main-loop cycle (source lines 1117-1401) processing the block of index
`now` at wall time `now·block_sec`: push the block and snapshot into all four
ring buffers, run the trigger evaluation loop and the prominence window, form
the combined condition and required duration, then the hold / recording /
post-roll state machine. -/
def step (cfg : Config) (now : ℕ) (inp : BlockInput) (st0 : LoopState) :
    Except Crash LoopState :=
  let t : ℚ := (now : ℚ) * cfg.blockSec
  let st := { st0 with
    preBuf := appendMax (preMaxLen cfg) st0.preBuf now,
    specBuf := appendMax (preMaxLen cfg) st0.specBuf now,
    postBufA := appendMax (postMaxLen cfg) st0.postBufA now,
    postBufS := appendMax (postMaxLen cfg) st0.postBufS now }
  match evalSimple t inp.la inp.sumLevel cfg.triggers ⟨[], st.evalStates, st.triggerLog, st.stale⟩ with
  | .error e => .error e
  | .ok ev =>
    let vals := promVals cfg.prom
    let promBuf := if vals = [] then st.promBuf
      else appendMax (promMaxLen cfg) st.promBuf (isProminent inp.la vals)
    let results := if vals = [] then ev.results
      else ev.results ++ [decide (promBuf.length = promMaxLen cfg) && promBuf.all id]
    let count := activeTriggerCount cfg.triggers
    let trigEvent := combineResults count cfg.logic results
    let reqDur := requiredDuration cfg.triggers cfg.logic
    let st := { st with
      evalStates := ev.states, triggerLog := ev.log, stale := ev.stale, promBuf := promBuf }
    if st.trig = false then
      if trigEvent then
        let st : LoopState := if st.hold = 0 then
            { st with holdStartIdx := some st.preBuf.length, holdStartTime := some t }
          else st
        let st : LoopState := { st with hold := st.hold + cfg.blockSec }
        if reqDur ≤ st.hold then
          .ok { st with
            trig := true,
            postLeft := postSec,
            eventAudio := (match st.holdStartIdx with
              | some i => pySliceFrom i st.preBuf
              | none => st.preBuf),
            eventSpecs := (match st.holdStartIdx with
              | some i => pySliceFrom i st.specBuf
              | none => st.specBuf),
            curDir := some t,
            eventStartTime := some (st.holdStartTime.getD t),
            actualDuration := 0,
            recordingStopped := false,
            hold := 0,
            holdStartIdx := none,
            holdStartTime := none,
            postBufA := [],
            postBufS := [] }
        else .ok st
      else .ok { st with hold := 0, holdStartIdx := none, holdStartTime := none }
    else
      let st := { st with
        actualDuration := (match st.eventStartTime with
          | some s => t - s
          | none => 0),
        eventAudio := st.eventAudio ++ [now],
        eventSpecs := st.eventSpecs ++ [now] }
      if trigEvent then .ok { st with postLeft := postSec }
      else
        let st := { st with postLeft := st.postLeft - cfg.blockSec }
        if st.postLeft ≤ 0 then
          let st := { st with
            eventAudio := st.eventAudio ++ st.postBufA,
            eventSpecs := st.eventSpecs ++ st.postBufS }
          if st.recordingStopped = false then .ok (endEvent st)
          else .ok { st with trig := false, hold := 0 }
        else .ok st

/-- Run the loop for `k` cycles starting at block index `i`, drawing the
per-cycle inputs from `f`. -/
def runFrom (cfg : Config) (f : ℕ → BlockInput) : ℕ → ℕ → LoopState → Except Crash LoopState
  | _, 0, st => .ok st
  | i, k + 1, st =>
    match step cfg i (f i) st with
    | .error e => .error e
    | .ok st1 => runFrom cfg f (i + 1) k st1

/-- Run the loop for `n` cycles from program start. -/
def run (cfg : Config) (f : ℕ → BlockInput) (n : ℕ) : Except Crash LoopState :=
  runFrom cfg f 0 n initState

/-- The exception, if any, with which a computation aborted. -/
def crashOf : Except Crash α → Option Crash
  | .error c => some c
  | .ok _ => none

/-! ## Concrete scenario runs (claims C1, C2, C4, C6, C7, C10)

Each scenario fixes a configuration and a per-cycle input trace.  Levels are
supplied directly as the per-block `LA` values: the DSP front end (butterworth
filtering and dB conversion) is modelled separately and its outputs are the
inputs of this control layer, exactly as in the source, where the trigger loop
only reads the `LA` dict. -/

/-- Block duration 1 s, pre-buffer 5 s, one band trigger at 1000 Hz with
threshold 60 dB(A) and min-duration 2 s, recording length 30 s. -/
def toneCfg : Config := ⟨1, 5, [⟨.band 1000, 60, 2⟩], .AND, ⟨none, none, 0⟩, 30⟩

/-- A 70 dB(A) tone at 1000 Hz during blocks 10..15 (t = 10 s .. 16 s),
30 dB(A) otherwise. -/
def toneInp (i : ℕ) : BlockInput := ⟨[(1000, if 10 ≤ i ∧ i ≤ 15 then 70 else 30)], none⟩

/-- Like `toneInp` but the tone never ends (blocks 10, 11, 12, ...). -/
def toneOnInp (i : ℕ) : BlockInput := ⟨[(1000, if 10 ≤ i then 70 else 30)], none⟩

/-- C1: the claim says that on the block where accumulated hold first reaches
the required duration, the event audio/level sequences are initialized as the
pre-roll ring buffer sliced from the index recorded when hold began
accumulating, so that the clip begins at the true onset of sustained
triggering.  The code records `hold_start_idx = len(pre_buf)` — the length of
the (already full) deque, one past its last element — and the deque shifts
before the slice is taken, so at event start the slice
`list(pre_buf)[hold_start_idx:]` is empty: with a full 5-block pre-buffer and
the tone starting at block 10, after block 10 the recorded index is 5 (the
buffer length), and at event start (block 11) the event sequences are `[]`,
containing neither the 5-block pre-roll nor the onset blocks 10 and 11. -/
theorem C1_preroll_slice_is_empty :
    (run toneCfg toneOnInp 11).toOption.map
        (fun st => (st.trig, st.hold, st.holdStartIdx, st.preBuf.length)) =
      some (false, 1, some 5, 5) ∧
    (run toneCfg toneOnInp 12).toOption.map
        (fun st => (st.trig, st.eventAudio, st.eventSpecs, st.preBuf, st.curDir)) =
      some (true, [], [], [7, 8, 9, 10, 11], some 11) := by
  constructor
  · with_unfolding_all decide
  · with_unfolding_all decide

/-- C2: the end-to-end scenario (block 1 s, band trigger 1000 Hz / 60 dB(A) /
2 s, pre-buffer 5 s, max length 30 s, 70 dB(A) tone during t = 10..16 s).  The
claim expects pre-roll spanning t = 7..12, post-roll t = 16..19, and a final
record covering t = 7..19 (12 s) with one trigger-log entry of ≈ 6 s.  The
code agrees on hold start (block 10), event start (processing of block 11) and
the single 6 s trigger-log entry, but diverges everywhere else: the pre-roll
slice is empty, the post-trigger time is hardcoded to 30 s (source line 748,
the configured 3 s post-buffer does not exist as a setting), so at t = 19 the
event is still recording and nothing is finalized; the event finally ends at
block 45 with audio blocks 12..45 followed by a duplicated copy of blocks
16..45 (64 blocks, not 12 s), with actual duration 35 s. -/
theorem C2_scenario_run :
    (run toneCfg toneInp 11).toOption.map (fun st => (st.hold, st.holdStartTime)) =
      some (1, some 10) ∧
    (run toneCfg toneInp 12).toOption.map (fun st => (st.trig, st.curDir, st.eventAudio)) =
      some (true, some 11, []) ∧
    (run toneCfg toneInp 20).toOption.map (fun st => (st.trig, st.finalized, st.postLeft)) =
      some (true, [], 26) ∧
    (run toneCfg toneInp 46).toOption.map (fun st => st.trig) = some false ∧
    (run toneCfg toneInp 46).toOption.map
        (fun st => st.finalized.map fun r => (r.dir, r.audio, r.log, r.actualDuration)) =
      some [(11, List.range' 12 34 ++ List.range' 16 30,
        [⟨10, .band 1000, 70, 6⟩], 35)] := by
  refine ⟨?_, ?_, ?_, ?_, ?_⟩
  · with_unfolding_all decide
  · with_unfolding_all decide
  · with_unfolding_all decide
  · with_unfolding_all decide
  · with_unfolding_all decide

/-- Pre-buffer 2 s, one band trigger at 1000 Hz / 60 dB(A) / 1 s, configured
maximum recording length 2 s. -/
def maxLenCfg : Config := ⟨1, 2, [⟨.band 1000, 60, 1⟩], .AND, ⟨none, none, 0⟩, 2⟩

/-- Tone during blocks 5..14 (10 s, five times the configured 2 s limit). -/
def maxLenInp (i : ℕ) : BlockInput := ⟨[(1000, if 5 ≤ i ∧ i ≤ 14 then 70 else 30)], none⟩

/-- C6: the claim says that once the accumulated event duration reaches the
configured maximum recording length the event is eagerly finalized, with a
`finalized` flag gating a second finalization.  The code reads `recLength`
(source line 1342) but never uses it, and nothing ever sets
`S["recording_stopped"]`, so the guarded branch at line 1395 is dead: with a
2 s limit and a 10 s trigger, at cycle 15 the event has run for 9 s with no
finalization and `recording_stopped` still false, and the one and only
finalization happens at post-roll expiry (cycle 44, 39 s of actual duration,
69 recorded blocks).  (The second half of the claim — at most one execution of
the finalize side effects per event — does hold, via the `cur_dir` guard of
`end_event`, as the single final record shows.) -/
theorem C6_no_eager_finalize :
    maxLenCfg.recLength = 2 ∧
    (run maxLenCfg maxLenInp 15).toOption.map
        (fun st => (st.trig, st.actualDuration, st.finalized, st.recordingStopped, st.curDir)) =
      some (true, 9, [], false, some 5) ∧
    (run maxLenCfg maxLenInp 45).toOption.map
        (fun st => (st.trig, st.recordingStopped,
          st.finalized.map fun r => (r.dir, r.actualDuration, r.recordedBlocks))) =
      some (false, false, [(5, 39, 69)]) := by
  refine ⟨rfl, ?_, ?_⟩
  · with_unfolding_all decide
  · with_unfolding_all decide

/-- Two triggers under AND: one at 999 Hz (absent from the configured band
set), one at 100 Hz (present and above threshold). -/
def unresolvedCfg : Config :=
  ⟨1, 2, [⟨.band 999, 60, 2⟩, ⟨.band 100, 50, 2⟩], .AND, ⟨none, none, 0⟩, 30⟩

/-- The same configuration with only the resolvable 100 Hz trigger. -/
def resolvedCfg : Config := ⟨1, 2, [⟨.band 100, 50, 2⟩], .AND, ⟨none, none, 0⟩, 30⟩

/-- Every block carries only the 100 Hz band, at 60 dB(A). -/
def unresolvedInp (_ : ℕ) : BlockInput := ⟨[(100, 60)], none⟩

/-- C7: the claim says a band trigger whose frequency is absent from the band
set is excluded from the combined evaluation for the cycle and reported as a
warning, and in particular under AND does not block an event the remaining
resolvable triggers would start.  The warning is printed and no result is
appended, but the state-tracking code that follows still executes against the
Python local `is_triggered`, which that branch never assigns: when the
unresolvable trigger is evaluated first in the first cycle the local is unbound
(`UnboundLocalError`), and when it is evaluated after a triggered one the stale
`True` leads to `LA[freq_val]` (`KeyError`).  Either way the exception
propagates out of the processing loop, so the whole run aborts and no event
ever starts — while the same input with only the resolvable trigger starts an
event at cycle 1. -/
theorem C7_unresolved_trigger_crashes :
    crashOf (evalSimple 0 [(100, 60)] none
        [⟨.band 999, 60, 2⟩, ⟨.band 100, 50, 2⟩] ⟨[], [], [], none⟩) =
      some .unboundLocal ∧
    crashOf (evalSimple 0 [(100, 60)] none
        [⟨.band 100, 50, 2⟩, ⟨.band 999, 60, 2⟩] ⟨[], [], [], none⟩) =
      some .keyError ∧
    crashOf (run unresolvedCfg unresolvedInp 1) = some .unboundLocal ∧
    (run resolvedCfg unresolvedInp 2).toOption.map (fun st => (st.trig, st.curDir)) =
      some (true, some 1) := by
  refine ⟨?_, ?_, ?_, ?_⟩
  · with_unfolding_all decide
  · with_unfolding_all decide
  · with_unfolding_all decide
  · with_unfolding_all decide

/-- No simple trigger rows; the prominent-frequency trigger is configured at
1000 Hz with a 1 s window; OR logic. -/
def promOnlyCfg : Config := ⟨1, 2, [], .OR, ⟨some 1000, none, 1⟩, 30⟩

/-- Every block: 1000 Hz at 70 dB(A) strictly dominates 500 Hz at 40 dB(A). -/
def promOnlyInp (_ : ℕ) : BlockInput := ⟨[(1000, 70), (500, 40)], none⟩

/-- C4 counterexample: the claim says that when at least one spec is enabled —
explicitly including an enabled prominent-frequency spec — the combined
condition under OR is true exactly when some enabled spec is ACTIVE.  Here the
prominent spec is the only enabled spec and it is ACTIVE from the first cycle
on (its 1-block window is full and all-true), yet `active_trigger_count`
(source line 1203) counts only the four simple rows, so it is 0 and the
combined condition is forced false on every one of five cycles: hold never
accumulates, no event is ever started. -/
theorem C4_counterexample :
    promVals promOnlyCfg.prom = [1000] ∧
    isProminent (promOnlyInp 0).la (promVals promOnlyCfg.prom) = true ∧
    activeTriggerCount promOnlyCfg.triggers = 0 ∧
    (run promOnlyCfg promOnlyInp 5).toOption.map
        (fun st => (st.trig, st.hold, st.promBuf, st.finalized)) =
      some (false, 0, [true], []) := by
  refine ⟨rfl, ?_, rfl, ?_⟩
  · with_unfolding_all decide
  · with_unfolding_all decide

/-- Block duration 7 s (a 1/3 of the hardcoded 30 s post-trigger time leaves a
remainder), pre-buffer 10 s, one band trigger at 100 Hz / 50 dB(A) / 2 s. -/
def coarseCfg : Config := ⟨7, 10, [⟨.band 100, 50, 2⟩], .AND, ⟨none, none, 0⟩, 30⟩

/-- Trigger active during blocks 1..2, quiet before and after. -/
def coarseInp (i : ℕ) : BlockInput := ⟨[(100, if 1 ≤ i ∧ i ≤ 2 then 60 else 10)], none⟩

/-- C10 counterexample: the claim says every audio block and level snapshot
processed while the trigger condition was false during the post-roll window
appears twice in the finalized sequences.  With a 7 s block the countdown from
the hardcoded 30 s post time takes ⌈30/7⌉ = 5 false blocks (3, 4, 5, 6, 7) but
the post ring buffers hold only `int(30/7)` = 4 entries, so the earliest
post-roll block (3) is evicted before the buffer is appended: it appears once
in the finalized audio and level sequences, not twice (blocks 4..7 do appear
twice). -/
theorem C10_counterexample :
    (run coarseCfg coarseInp 8).toOption.map
        (fun st => st.finalized.map fun r => (r.audio, r.specs)) =
      some [([2, 3, 4, 5, 6, 7] ++ [4, 5, 6, 7], [2, 3, 4, 5, 6, 7] ++ [4, 5, 6, 7])] ∧
    List.count 3 ([2, 3, 4, 5, 6, 7] ++ [4, 5, 6, 7]) = 1 ∧
    List.count 4 ([2, 3, 4, 5, 6, 7] ++ [4, 5, 6, 7]) = 2 := by
  refine ⟨?_, by decide, by decide⟩
  with_unfolding_all decide

/-! ## Symbolic lemmas about the loop with one enabled band trigger

For a configuration with a single band trigger (frequency `fb`, threshold
`a > 0`, min-duration `d`) and per-block input `LA = {fb: lv}`, the evaluation
layer always succeeds and the combined condition is exactly `a ≤ lv`. -/

/-- AND logic, a single band trigger, no prominent trigger. -/
def oneBandCfg (b pre fb a d rl : ℚ) : Config :=
  ⟨b, pre, [⟨.band fb, a, d⟩], .AND, ⟨none, none, 0⟩, rl⟩

/-- Input trace carrying only the target band, at level `lv i` on block `i`. -/
def oneBandInp (fb : ℚ) (lv : ℕ → ℚ) (i : ℕ) : BlockInput := ⟨[(fb, lv i)], none⟩

theorem runFrom_cons (cfg : Config) (f : ℕ → BlockInput) (i k : ℕ) (st : LoopState) :
    runFrom cfg f i (k + 1) st =
      match step cfg i (f i) st with
      | .error e => .error e
      | .ok st1 => runFrom cfg f (i + 1) k st1 := rfl

theorem runFrom_snoc (cfg : Config) (f : ℕ → BlockInput) (i k : ℕ) (st : LoopState) :
    runFrom cfg f i (k + 1) st =
      match runFrom cfg f i k st with
      | .error e => .error e
      | .ok st1 => step cfg (i + k) (f (i + k)) st1 := by
  induction k generalizing i st with
  | zero =>
    rw [runFrom_cons]
    cases h : step cfg i (f i) st with
    | error e => simp [runFrom, h]
    | ok st1 => simp [runFrom, h]
  | succ k ih =>
    rw [runFrom_cons]
    cases h : step cfg i (f i) st with
    | error e =>
      rw [runFrom_cons, h]
    | ok st1 =>
      rw [runFrom_cons, h]
      dsimp only
      rw [ih (i + 1) st1, show i + 1 + k = i + (k + 1) from by omega]

theorem evalSimple_oneBand (t fb a d lv : ℚ) (ha : 0 < a)
    (S : List TrigState) (L : List LogEntry) (z : Option Bool) :
    evalSimple t [(fb, lv)] none [⟨.band fb, a, d⟩] ⟨[], S, L, z⟩ =
      .ok (trackKey t (.band fb) (decide (a ≤ lv)) lv
        ⟨[decide (a ≤ lv)], S, L, some (decide (a ≤ lv))⟩) := by
  simp [evalSimple, evalSpec, laGet, ha]

theorem trackKey_results (now : ℚ) (k : TKey) (it : Bool) (ampNow : ℚ) (st : EvalSt) :
    (trackKey now k it ampNow st).results = st.results ∧
      (trackKey now k it ampNow st).stale = st.stale := by
  unfold trackKey
  constructor
  · split
    · split <;> rfl
    · split <;> rfl
  · split
    · split <;> rfl
    · split <;> rfl

theorem step_oneBand_quiet (b pre fb a d rl : ℚ) (ha : 0 < a)
    (i : ℕ) (lv : ℚ) (st : LoopState) (htr : st.trig = false) (hlv : ¬ a ≤ lv) :
    ∃ st2, step (oneBandCfg b pre fb a d rl) i ⟨[(fb, lv)], none⟩ st = .ok st2 ∧
      st2.trig = false ∧ st2.hold = 0 ∧ st2.curDir = st.curDir ∧
      st2.finalized = st.finalized := by
  unfold step
  simp only [oneBandCfg]
  rw [evalSimple_oneBand ((i : ℚ) * b) fb a d lv ha]
  simp [promVals, combineResults, activeTriggerCount, trackKey_results, htr, hlv, ha,
    decide_eq_false hlv]

theorem requiredDuration_oneBand (fb a d : ℚ) (ha : 0 < a) (hfb : 0 ≤ fb) :
    requiredDuration [⟨.band fb, a, d⟩] .AND = d := by
  have hde : durationEligible ⟨.band fb, a, d⟩ = true := by
    simp [durationEligible, ha, hfb]
  simp [requiredDuration, hde, qListMax]

theorem step_oneBand_loud_noFire (b pre fb a d rl : ℚ) (ha : 0 < a) (hfb : 0 ≤ fb)
    (i : ℕ) (lv : ℚ) (st : LoopState) (htr : st.trig = false) (hlv : a ≤ lv)
    (hnf : ¬ d ≤ st.hold + b) :
    ∃ st2, step (oneBandCfg b pre fb a d rl) i ⟨[(fb, lv)], none⟩ st = .ok st2 ∧
      st2.trig = false ∧ st2.hold = st.hold + b ∧ st2.curDir = st.curDir ∧
      st2.finalized = st.finalized := by
  unfold step
  simp only [oneBandCfg]
  rw [evalSimple_oneBand ((i : ℚ) * b) fb a d lv ha]
  by_cases hz : st.hold = 0
  · rw [hz] at hnf ⊢
    simp only [zero_add] at hnf
    simp [promVals, combineResults, activeTriggerCount, requiredDuration_oneBand fb a d ha hfb,
      trackKey_results, htr, hlv, ha, hnf, decide_eq_true hlv]
  · simp [promVals, combineResults, activeTriggerCount, requiredDuration_oneBand fb a d ha hfb,
      trackKey_results, htr, hlv, ha, hnf, hz, decide_eq_true hlv]

theorem step_oneBand_fire (b pre fb a d rl : ℚ) (ha : 0 < a) (hfb : 0 ≤ fb)
    (i : ℕ) (lv : ℚ) (st : LoopState) (htr : st.trig = false) (hlv : a ≤ lv)
    (hf : d ≤ st.hold + b) :
    ∃ st2, step (oneBandCfg b pre fb a d rl) i ⟨[(fb, lv)], none⟩ st = .ok st2 ∧
      st2.trig = true ∧ st2.hold = 0 ∧ st2.curDir = some ((i : ℚ) * b) ∧
      st2.finalized = st.finalized ∧ st2.postLeft = postSec ∧
      st2.recordingStopped = false := by
  unfold step
  simp only [oneBandCfg]
  rw [evalSimple_oneBand ((i : ℚ) * b) fb a d lv ha]
  by_cases hz : st.hold = 0
  · rw [hz] at hf ⊢
    simp only [zero_add] at hf
    simp [promVals, combineResults, activeTriggerCount, requiredDuration_oneBand fb a d ha hfb,
      trackKey_results, htr, hlv, ha, hf, decide_eq_true hlv]
  · simp [promVals, combineResults, activeTriggerCount, requiredDuration_oneBand fb a d ha hfb,
      trackKey_results, htr, hlv, ha, hf, hz, decide_eq_true hlv]

/-- C3: for block duration `b` and required hold duration `d` (here the
min-duration of the single enabled band trigger, which under AND is the
required duration), the hold accumulates exactly `b` per consecutive block on
which the combined condition (`a ≤` measured level) is true: after `n` such
blocks with `n·b < d` the hold is exactly `n·b` and no event has started; the
event starts exactly on the first block where the accumulated hold reaches
`d` (`n·b < d ≤ (n+1)·b`); and a single block with the combined condition
false resets the hold to exactly 0 from any pre-event state. -/
theorem C3_hold_accumulation (b pre fb a d rl : ℚ) (lv : ℕ → ℚ)
    (ha : 0 < a) (hfb : 0 ≤ fb) (hb : 0 < b) :
    (∀ n : ℕ, (∀ i, i < n → a ≤ lv i) → (n : ℚ) * b < d →
      ∃ st, run (oneBandCfg b pre fb a d rl) (oneBandInp fb lv) n = .ok st ∧
        st.trig = false ∧ st.hold = (n : ℚ) * b ∧ st.curDir = none ∧
        st.finalized = []) ∧
    (∀ n : ℕ, (∀ i, i ≤ n → a ≤ lv i) → (n : ℚ) * b < d → d ≤ ((n : ℚ) + 1) * b →
      ∃ st, run (oneBandCfg b pre fb a d rl) (oneBandInp fb lv) (n + 1) = .ok st ∧
        st.trig = true ∧ st.hold = 0 ∧ st.curDir = some ((n : ℚ) * b)) ∧
    (∀ (i : ℕ) (st : LoopState), st.trig = false → ¬ a ≤ lv i →
      ∃ st2, step (oneBandCfg b pre fb a d rl) i (oneBandInp fb lv i) st = .ok st2 ∧
        st2.hold = 0 ∧ st2.trig = false) := by
  have acc : ∀ n : ℕ, (∀ i, i < n → a ≤ lv i) → (n : ℚ) * b < d →
      ∃ st, run (oneBandCfg b pre fb a d rl) (oneBandInp fb lv) n = .ok st ∧
        st.trig = false ∧ st.hold = (n : ℚ) * b ∧ st.curDir = none ∧
        st.finalized = [] := by
    intro n
    induction n with
    | zero =>
      intro _ _
      exact ⟨initState, rfl, rfl, by norm_num [initState], rfl, rfl⟩
    | succ n ih =>
      intro hloud hlt
      have hstep1 : ((n : ℚ)) * b < ((n : ℚ) + 1) * b := by nlinarith
      have hnb : (n : ℚ) * b < d := by push_cast at hlt; nlinarith
      obtain ⟨st, hrun, htr, hh, hcd, hfin⟩ := ih (fun i hi => hloud i (by omega)) hnb
      obtain ⟨st2, hstep, h1, h2, h3, h4⟩ :=
        step_oneBand_loud_noFire b pre fb a d rl ha hfb n (lv n) st htr
          (hloud n (by omega))
          (by rw [hh]; push_cast at hlt ⊢; intro hc; linarith)
      refine ⟨st2, ?_, h1, ?_, by rw [h3, hcd], by rw [h4, hfin]⟩
      · show runFrom _ _ 0 (n + 1) initState = .ok st2
        rw [runFrom_snoc, show runFrom (oneBandCfg b pre fb a d rl) (oneBandInp fb lv) 0 n
          initState = .ok st from hrun]
        dsimp only
        rw [show 0 + n = n from by omega]
        exact hstep
      · rw [h2, hh]; push_cast; ring
  refine ⟨acc, ?_, ?_⟩
  · intro n hloud hlt hge
    obtain ⟨st, hrun, htr, hh, hcd, hfin⟩ := acc n (fun i hi => hloud i (by omega)) hlt
    obtain ⟨st2, hstep, h1, h2, h3, h4, h5, h6⟩ :=
      step_oneBand_fire b pre fb a d rl ha hfb n (lv n) st htr (hloud n le_rfl)
        (by rw [hh]; linarith)
    refine ⟨st2, ?_, h1, h2, h3⟩
    show runFrom _ _ 0 (n + 1) initState = .ok st2
    rw [runFrom_snoc, show runFrom (oneBandCfg b pre fb a d rl) (oneBandInp fb lv) 0 n
      initState = .ok st from hrun]
    dsimp only
    rw [show 0 + n = n from by omega]
    exact hstep
  · intro i st htr hq
    obtain ⟨st2, hstep, h1, h2, _, _⟩ := step_oneBand_quiet b pre fb a d rl ha i (lv i) st htr hq
    exact ⟨st2, hstep, h2, h1⟩

/-- Closed instance of `C3_hold_accumulation`: block 1 s, pre 3 s, band
trigger 1000 Hz / 60 dB(A) / 2 s, constant 70 dB(A) level.  After one loud
block the hold is exactly 1 and no event has started; the event starts exactly
on the second loud block (hold 2 ≥ 2); and from the idle start state one quiet
block keeps the hold at 0. -/
theorem C3_hold_accumulation_witness :
    (∃ st, run (oneBandCfg 1 3 1000 60 2 30) (oneBandInp 1000 fun _ => 70) 1 = .ok st ∧
      st.trig = false ∧ st.hold = (1 : ℕ) * (1 : ℚ) ∧ st.curDir = none ∧
      st.finalized = []) ∧
    (∃ st, run (oneBandCfg 1 3 1000 60 2 30) (oneBandInp 1000 fun _ => 70) 2 = .ok st ∧
      st.trig = true ∧ st.hold = 0 ∧ st.curDir = some ((1 : ℕ) * (1 : ℚ))) ∧
    (∃ st2, step (oneBandCfg 1 3 1000 60 2 30) 0 (oneBandInp 1000 (fun _ => 30) 0) initState =
        .ok st2 ∧ st2.hold = 0 ∧ st2.trig = false) := by
  have h := C3_hold_accumulation 1 3 1000 60 2 30 (fun _ => 70)
    (by norm_num) (by norm_num) (by norm_num)
  have hq := C3_hold_accumulation 1 3 1000 60 2 30 (fun _ => 30)
    (by norm_num) (by norm_num) (by norm_num)
  refine ⟨?_, ?_, hq.2.2 0 initState rfl (by norm_num)⟩
  · have := h.1 1 (fun i _ => by norm_num) (by norm_num)
    simpa using this
  · have := h.2.1 1 (fun i _ => by norm_num) (by norm_num) (by norm_num)
    simpa using this

theorem step_oneBand_rec_quiet (b pre fb a d rl : ℚ) (ha : 0 < a)
    (i : ℕ) (lv : ℚ) (st : LoopState) (htr : st.trig = true) (hlv : ¬ a ≤ lv)
    (hpl : ¬ st.postLeft - b ≤ 0) :
    ∃ st2, step (oneBandCfg b pre fb a d rl) i ⟨[(fb, lv)], none⟩ st = .ok st2 ∧
      st2.trig = true ∧ st2.recordingStopped = st.recordingStopped ∧
      st2.curDir = st.curDir ∧ st2.postLeft = st.postLeft - b ∧
      st2.eventAudio = st.eventAudio ++ [i] ∧ st2.eventSpecs = st.eventSpecs ++ [i] ∧
      st2.postBufA = appendMax (postMaxLen (oneBandCfg b pre fb a d rl)) st.postBufA i ∧
      st2.postBufS = appendMax (postMaxLen (oneBandCfg b pre fb a d rl)) st.postBufS i ∧
      st2.finalized = st.finalized := by
  unfold step
  simp only [oneBandCfg]
  rw [evalSimple_oneBand ((i : ℚ) * b) fb a d lv ha]
  simp [promVals, combineResults, activeTriggerCount, trackKey_results, htr, hlv, ha,
    decide_eq_false hlv, hpl, postMaxLen, oneBandCfg]

theorem step_oneBand_rec_quiet_expiry (b pre fb a d rl : ℚ) (ha : 0 < a)
    (i : ℕ) (lv : ℚ) (st : LoopState) (c : ℚ) (htr : st.trig = true) (hlv : ¬ a ≤ lv)
    (hpl : st.postLeft - b ≤ 0) (hrs : st.recordingStopped = false)
    (hcd : st.curDir = some c) :
    ∃ st2 r, step (oneBandCfg b pre fb a d rl) i ⟨[(fb, lv)], none⟩ st = .ok st2 ∧
      st2.trig = false ∧ st2.curDir = none ∧
      st2.finalized = st.finalized ++ [r] ∧ r.dir = c ∧
      r.audio = st.eventAudio ++ [i] ++
        appendMax (postMaxLen (oneBandCfg b pre fb a d rl)) st.postBufA i ∧
      r.specs = st.eventSpecs ++ [i] ++
        appendMax (postMaxLen (oneBandCfg b pre fb a d rl)) st.postBufS i := by
  unfold step
  simp only [oneBandCfg]
  rw [evalSimple_oneBand ((i : ℚ) * b) fb a d lv ha]
  simp [promVals, combineResults, activeTriggerCount, trackKey_results, htr, hlv, ha,
    decide_eq_false hlv, hpl, hrs, hcd, endEvent, postMaxLen, oneBandCfg]


/-- Appending to a capped deque commutes with capping the uncapped history. -/
theorem lastN_append_lastN (m : ℕ) (u v : List α) :
    lastN m (lastN m u ++ v) = lastN m (u ++ v) := by
  unfold lastN
  rcases le_or_lt u.length m with h | h
  · rw [Nat.sub_eq_zero_of_le h, List.drop_zero]
  · have hlen : (u.drop (u.length - m)).length = m := by
      rw [List.length_drop]; omega
    rw [List.drop_append_eq_append_drop, List.drop_append_eq_append_drop,
      List.drop_drop, List.length_append, List.length_append, hlen]
    congr 2 <;> omega

/-- Post-roll phase law: from any recording state (`trig` set, event open at
`c`, not stopped), feeding `k` consecutive quiet blocks — where `k` is exactly
the number of `post_left` decrements needed to reach `≤ 0` — finalizes exactly
one event whose audio/level sequences are the pre-phase event contents, the
`k` live-appended window blocks, and the last `postMaxLen` entries of the post
ring buffer including those same window blocks. -/
theorem postroll_core (b pre fb a d rl : ℚ) (lv : ℕ → ℚ) (ha : 0 < a) :
    ∀ (k i : ℕ) (st : LoopState) (c : ℚ), 0 < k →
    st.trig = true → st.recordingStopped = false → st.curDir = some c →
    (∀ j, i ≤ j → j < i + k → ¬ a ≤ lv j) →
    (∀ j : ℕ, j + 1 < k → 0 < st.postLeft - ((j : ℚ) + 1) * b) →
    st.postLeft - (k : ℚ) * b ≤ 0 →
    ∃ st2 r, runFrom (oneBandCfg b pre fb a d rl) (oneBandInp fb lv) i k st = .ok st2 ∧
      st2.finalized = st.finalized ++ [r] ∧ st2.trig = false ∧ st2.curDir = none ∧
      r.dir = c ∧
      r.audio = st.eventAudio ++ List.range' i k ++
        lastN (postMaxLen (oneBandCfg b pre fb a d rl)) (st.postBufA ++ List.range' i k) ∧
      r.specs = st.eventSpecs ++ List.range' i k ++
        lastN (postMaxLen (oneBandCfg b pre fb a d rl)) (st.postBufS ++ List.range' i k) := by
  intro k
  induction k with
  | zero => intro i st c hk; omega
  | succ k ih =>
    intro i st c hk htr hrs hcd hq hcount hexp
    rcases Nat.eq_zero_or_pos k with hk0 | hkpos
    · subst hk0
      have hb1 : st.postLeft - b ≤ 0 := by push_cast at hexp; linarith
      obtain ⟨st2, r, hstep, e1, e2, e3, e4, e5, e6⟩ :=
        step_oneBand_rec_quiet_expiry b pre fb a d rl ha i (lv i) st c htr
          (hq i le_rfl (by omega)) hb1 hrs hcd
      refine ⟨st2, r, ?_, e3, e1, e2, e4, ?_, ?_⟩
      · rw [runFrom_cons]
        simp only [oneBandInp]
        rw [hstep]
        rfl
      · rw [e5]; simp [appendMax, List.range']
      · rw [e6]; simp [appendMax, List.range']
    · have h0 : 0 < st.postLeft - b := by
        have := hcount 0 (by omega); push_cast at this; linarith
      obtain ⟨st1, hstep, p1, p2, p3, p4, p5, p6, p7, p8, p9⟩ :=
        step_oneBand_rec_quiet b pre fb a d rl ha i (lv i) st htr
          (hq i le_rfl (by omega)) (by intro hcon; linarith)
      obtain ⟨st2, r, hrun, f1, f2, f3, f4, f5, f6⟩ :=
        ih (i + 1) st1 c hkpos p1 (p2.trans hrs) (p3.trans hcd)
          (fun j h1 h2 => hq j (by omega) (by omega))
          (fun j hj => by
            have := hcount (j + 1) (by omega)
            rw [p4]; push_cast at this ⊢; linarith)
          (by rw [p4]; push_cast at hexp ⊢; linarith)
      refine ⟨st2, r, ?_, ?_, f2, f3, f4, ?_, ?_⟩
      · rw [runFrom_cons]
        simp only [oneBandInp]
        rw [hstep]
        exact hrun
      · rw [f1, p9]
      · rw [f5, p5, p7]
        rw [appendMax, lastN_append_lastN]
        simp [List.range'_succ]
      · rw [f6, p6, p8]
        rw [appendMax, lastN_append_lastN]
        simp [List.range'_succ]

/-- C10 amended: for every event finalized after the post-roll timer expires,
the finalized audio and level sequences consist of the pre-expiry event
contents, then the `k = ⌈30/b⌉` post-roll-window blocks appended live, then the
last `max(1, int(30/b))` entries of the post ring buffer; consequently a fresh
post-roll-window block appears exactly twice when it falls within those last
retained entries and exactly once otherwise (so all window blocks appear twice
exactly when `int(30/b)` covers the whole window, e.g. when `b` divides the
hardcoded 30 s post time). -/
theorem C10_amended_postroll (b pre fb a d rl : ℚ) (lv : ℕ → ℚ) (ha : 0 < a)
    (k i : ℕ) (st : LoopState) (c : ℚ) (hk : 0 < k)
    (htr : st.trig = true) (hrs : st.recordingStopped = false) (hcd : st.curDir = some c)
    (hq : ∀ j, i ≤ j → j < i + k → ¬ a ≤ lv j)
    (hcount : ∀ j : ℕ, j + 1 < k → 0 < st.postLeft - ((j : ℚ) + 1) * b)
    (hexp : st.postLeft - (k : ℚ) * b ≤ 0) :
    ∃ st2 r, runFrom (oneBandCfg b pre fb a d rl) (oneBandInp fb lv) i k st = .ok st2 ∧
      st2.finalized = st.finalized ++ [r] ∧ st2.trig = false ∧ st2.curDir = none ∧
      r.dir = c ∧
      r.audio = st.eventAudio ++ List.range' i k ++
        lastN (postMaxLen (oneBandCfg b pre fb a d rl)) (st.postBufA ++ List.range' i k) ∧
      r.specs = st.eventSpecs ++ List.range' i k ++
        lastN (postMaxLen (oneBandCfg b pre fb a d rl)) (st.postBufS ++ List.range' i k) ∧
      (∀ x, x ∈ List.range' i k → x ∉ st.eventAudio → x ∉ st.postBufA →
        r.audio.count x =
          if x ∈ lastN (postMaxLen (oneBandCfg b pre fb a d rl)) (st.postBufA ++ List.range' i k)
          then 2 else 1) := by
  obtain ⟨st2, r, hrun, h1, h2, h3, h4, h5, h6⟩ :=
    postroll_core b pre fb a d rl lv ha k i st c hk htr hrs hcd hq hcount hexp
  refine ⟨st2, r, hrun, h1, h2, h3, h4, h5, h6, ?_⟩
  intro x hxw hxe hxp
  have hw1 : (List.range' i k).count x = 1 :=
    List.count_eq_one_of_mem (List.nodup_range' i k 1 (by norm_num)) hxw
  have hce : st.eventAudio.count x = 0 := List.count_eq_zero.mpr hxe
  have hPw : (st.postBufA ++ List.range' i k).count x = 1 := by
    rw [List.count_append, List.count_eq_zero.mpr hxp, hw1]
  have hsub : List.Sublist
      (lastN (postMaxLen (oneBandCfg b pre fb a d rl)) (st.postBufA ++ List.range' i k))
      (st.postBufA ++ List.range' i k) :=
    (List.drop_suffix _ _).sublist
  have hLle : (lastN (postMaxLen (oneBandCfg b pre fb a d rl))
      (st.postBufA ++ List.range' i k)).count x ≤ 1 := by
    have := List.Sublist.count_le hsub x
    omega
  rw [h5, List.count_append, List.count_append, hce, hw1]
  by_cases hxL : x ∈ lastN (postMaxLen (oneBandCfg b pre fb a d rl))
      (st.postBufA ++ List.range' i k)
  · have h1L : 0 < (lastN (postMaxLen (oneBandCfg b pre fb a d rl))
        (st.postBufA ++ List.range' i k)).count x :=
      List.count_pos_iff.mpr hxL
    rw [if_pos hxL]
    omega
  · rw [if_neg hxL, List.count_eq_zero.mpr hxL]

/-- A recording-phase state: event open at id 3, full 30 s of post time left,
blocks 1 and 2 already recorded and mirrored into the post buffers. -/
def postrollSt : LoopState :=
  { initState with
    trig := true
    recordingStopped := false
    curDir := some 3
    postLeft := 30
    eventAudio := [1, 2]
    eventSpecs := [1, 2]
    postBufA := [1, 2]
    postBufS := [1, 2] }

/-- Closed instance of `C10_amended_postroll`: block 1 s, a recording state
with two prior event blocks and post buffer `[1, 2]`, and 30 quiet blocks
10..39; the post buffer holds 30 entries, so the last 30 of `[1,2] ++ window`
are exactly the 30 window blocks and each fresh window block appears twice. -/
theorem C10_amended_postroll_witness :
    ∃ st2 r, runFrom (oneBandCfg 1 2 100 50 2 30) (oneBandInp 100 fun _ => 10) 10 30 postrollSt =
        .ok st2 ∧
      st2.finalized = postrollSt.finalized ++ [r] ∧ st2.trig = false ∧ st2.curDir = none ∧
      r.dir = 3 ∧
      r.audio = postrollSt.eventAudio ++ List.range' 10 30 ++
        lastN (postMaxLen (oneBandCfg 1 2 100 50 2 30)) (postrollSt.postBufA ++ List.range' 10 30) ∧
      r.specs = postrollSt.eventSpecs ++ List.range' 10 30 ++
        lastN (postMaxLen (oneBandCfg 1 2 100 50 2 30)) (postrollSt.postBufS ++ List.range' 10 30) ∧
      (∀ x, x ∈ List.range' 10 30 → x ∉ postrollSt.eventAudio → x ∉ postrollSt.postBufA →
        r.audio.count x =
          if x ∈ lastN (postMaxLen (oneBandCfg 1 2 100 50 2 30))
              (postrollSt.postBufA ++ List.range' 10 30)
          then 2 else 1) := by
  refine C10_amended_postroll 1 2 100 50 2 30 (fun _ => 10) (by norm_num) 30 10 postrollSt 3
    (by norm_num) rfl rfl rfl (fun j h1 h2 => by norm_num)
    (fun j hj => ?_) (by norm_num [postrollSt, initState])
  have hj29 : (j : ℚ) < 29 := by exact_mod_cast (by omega : j < 29)
  have hpl : postrollSt.postLeft = 30 := rfl
  rw [hpl]
  linarith

/-- Declarative counterpart of one loop iteration's contribution: an enabled
row contributes a result exactly when its source resolves (`"sum"` always, a
band only when present in `LA`). -/
def specResolves (la : List (ℚ × ℚ)) (t : TrigSpec) : Bool :=
  decide (0 < t.amp) &&
    match t.freq with
    | .blank => false
    | .sum => true
    | .band f => (laGet la f).isSome

/-- A row's instantaneous ACTIVE state: its measured level meets or exceeds
its threshold (false when the source does not resolve). -/
def specActive (la : List (ℚ × ℚ)) (sumLevel : Option ℚ) (t : TrigSpec) : Bool :=
  match t.freq with
  | .blank => false
  | .sum =>
    match sumLevel with
    | some s => decide (t.amp ≤ s)
    | none => false
  | .band f =>
    match laGet la f with
    | some v => decide (t.amp ≤ v)
    | none => false

/-- The declarative result list: the ACTIVE states of the enabled resolvable
rows, in configuration order. -/
def declResults (la : List (ℚ × ℚ)) (sumLevel : Option ℚ) (ts : List TrigSpec) : List Bool :=
  (ts.filter (specResolves la)).map (specActive la sumLevel)

/-- One iteration of the trigger loop, when it does not crash, appends exactly
the declarative contribution of its row to `trigger_results`. -/
theorem evalSpec_results (now : ℚ) (la : List (ℚ × ℚ)) (sumLevel : Option ℚ)
    (st st1 : EvalSt) (t : TrigSpec) (h : evalSpec now la sumLevel st t = .ok st1) :
    st1.results = st.results ++
      (if specResolves la t then [specActive la sumLevel t] else []) := by
  obtain ⟨freq, amp, dur⟩ := t
  cases freq with
  | blank =>
    simp only [evalSpec, Except.ok.injEq] at h
    subst h
    simp [specResolves]
  | sum =>
    by_cases hamp : 0 < amp
    · simp only [evalSpec, if_pos hamp, Except.ok.injEq] at h
      subst h
      rw [(trackKey_results _ _ _ _ _).1]
      cases sumLevel <;> simp [specResolves, specActive, hamp]
    · simp only [evalSpec, if_neg hamp, Except.ok.injEq] at h
      subst h
      simp [specResolves, hamp]
  | band f =>
    by_cases hamp : 0 < amp
    · cases hla : laGet la f with
      | some v =>
        simp only [evalSpec, if_pos hamp, hla, Except.ok.injEq] at h
        subst h
        rw [(trackKey_results _ _ _ _ _).1]
        simp [specResolves, specActive, hamp, hla]
      | none =>
        simp only [evalSpec, if_pos hamp, hla] at h
        have hres : st1.results = st.results := by
          cases hz : st.stale with
          | none => rw [hz] at h; exact absurd h (by simp)
          | some bb =>
            rw [hz] at h
            cases bb with
            | true =>
              by_cases hm : tsMem (.band f) st.states
              · simp only [if_pos hm, Except.ok.injEq] at h; subst h; rfl
              · simp only [if_neg hm] at h; exact absurd h (by simp)
            | false =>
              cases hf : tsFind (.band f) st.states with
              | none => rw [hf] at h; simp only [Except.ok.injEq] at h; subst h; rfl
              | some s0 => rw [hf] at h; simp only [Except.ok.injEq] at h; subst h; rfl
        rw [hres]
        simp [specResolves, specActive, hamp, hla]
    · simp only [evalSpec, if_neg hamp, Except.ok.injEq] at h
      subst h
      simp [specResolves, hamp]

/-- The whole trigger loop, when it does not crash, computes exactly the
declarative result list. -/
theorem evalSimple_results (now : ℚ) (la : List (ℚ × ℚ)) (sumLevel : Option ℚ)
    (ts : List TrigSpec) : ∀ (st st' : EvalSt),
    evalSimple now la sumLevel ts st = .ok st' →
    st'.results = st.results ++ declResults la sumLevel ts := by
  induction ts with
  | nil =>
    intro st st' h
    simp only [evalSimple, Except.ok.injEq] at h
    subst h
    simp [declResults]
  | cons t ts ih =>
    intro st st' h
    simp only [evalSimple] at h
    cases hs : evalSpec now la sumLevel st t with
    | error e => rw [hs] at h; exact absurd h (by simp)
    | ok st1 =>
      rw [hs] at h
      have h1 := evalSpec_results now la sumLevel st st1 t hs
      have h2 := ih st1 st' h
      rw [h2, h1, declResults, declResults, List.filter_cons]
      by_cases hr : specResolves la t
      · simp [hr, List.append_assoc]
      · simp [hr]

/-- C4 amended: whenever the trigger loop completes without crashing, its
collected results are exactly the instantaneous ACTIVE states of the enabled
simple specs whose source resolves; if zero simple specs are enabled
(`active_trigger_count = 0`) the combined condition is false under either
logic and regardless of any prominent-trigger result, even an ACTIVE one;
otherwise, with a nonempty collected list (simple results plus the prominent
result when that spec is configured), AND yields true exactly when every
collected result is true and OR exactly when at least one is. -/
theorem C4_amended_combination (ts : List TrigSpec) (la : List (ℚ × ℚ))
    (sumLevel : Option ℚ) (now : ℚ) (es : List TrigState) (lg : List LogEntry)
    (z : Option Bool) (st' : EvalSt) (promR : List Bool)
    (h : evalSimple now la sumLevel ts ⟨[], es, lg, z⟩ = .ok st') :
    st'.results = declResults la sumLevel ts ∧
    (activeTriggerCount ts = 0 →
      ∀ lgc, combineResults (activeTriggerCount ts) lgc (st'.results ++ promR) = false) ∧
    (activeTriggerCount ts ≠ 0 → st'.results ++ promR ≠ [] →
      ((combineResults (activeTriggerCount ts) Logic.AND (st'.results ++ promR) = true ↔
        ∀ r ∈ st'.results ++ promR, r = true) ∧
       (combineResults (activeTriggerCount ts) Logic.OR (st'.results ++ promR) = true ↔
        ∃ r ∈ st'.results ++ promR, r = true))) := by
  have hres : st'.results = declResults la sumLevel ts := by
    simpa using evalSimple_results now la sumLevel ts ⟨[], es, lg, z⟩ st' h
  refine ⟨hres, ?_, ?_⟩
  · intro hc lgc
    simp [combineResults, hc]
  · intro hc hne
    constructor
    · simp only [combineResults, if_neg hc]
      rw [if_neg hne]
      simp [List.all_eq_true]
    · simp only [combineResults, if_neg hc]
      rw [if_neg hne]
      simp [List.any_eq_true]

/-- Closed instance of `C4_amended_combination`: one enabled band trigger at
100 Hz / 50 dB with `LA = {100: 60}` (ACTIVE), and a prominent result `true`. -/
theorem C4_amended_combination_witness :
    (⟨[true], [⟨.band 100, 0, 60⟩], [], some true⟩ : EvalSt).results =
      declResults [(100, 60)] none [⟨.band 100, 50, 2⟩] ∧
    (activeTriggerCount [⟨.band 100, 50, 2⟩] = 0 → ∀ lgc,
      combineResults (activeTriggerCount [⟨.band 100, 50, 2⟩]) lgc
        ((⟨[true], [⟨.band 100, 0, 60⟩], [], some true⟩ : EvalSt).results ++ [true]) =
        false) ∧
    (activeTriggerCount [⟨.band 100, 50, 2⟩] ≠ 0 →
      (⟨[true], [⟨.band 100, 0, 60⟩], [], some true⟩ : EvalSt).results ++ [true] ≠ [] →
      ((combineResults (activeTriggerCount [⟨.band 100, 50, 2⟩]) Logic.AND
          ((⟨[true], [⟨.band 100, 0, 60⟩], [], some true⟩ : EvalSt).results ++ [true]) =
            true ↔
        ∀ r ∈ (⟨[true], [⟨.band 100, 0, 60⟩], [], some true⟩ : EvalSt).results ++ [true],
          r = true) ∧
       (combineResults (activeTriggerCount [⟨.band 100, 50, 2⟩]) Logic.OR
          ((⟨[true], [⟨.band 100, 0, 60⟩], [], some true⟩ : EvalSt).results ++ [true]) =
            true ↔
        ∃ r ∈ (⟨[true], [⟨.band 100, 0, 60⟩], [], some true⟩ : EvalSt).results ++ [true],
          r = true))) :=
  C4_amended_combination [⟨.band 100, 50, 2⟩] [(100, 60)] none 0 [] [] none
    ⟨[true], [⟨.band 100, 0, 60⟩], [], some true⟩ [true] (by with_unfolding_all rfl)


/-! ## SpectrumAverager: the publish-interval flush (claim C9)

Model of source lines 1144-1160: the per-band average over the publish buffer,
the rolling-buffer append and eviction, the per-band rolling mean, and the
published per-band output value.  Energies are linear (`10^(dB/10)`) rationals;
the dB conversion of the output goes through `Real.logb` and Python's
one-decimal rounding. -/

/-- The dict `avg_energies` (lines 1144-1147): per-band arithmetic mean of the linear
energies collected in the publish buffer, `0.0` for a band with no entries. -/
def avgEnergies (bands : List ℚ) (pubBuf : List (List (ℚ × ℚ))) : List (ℚ × ℚ) :=
  bands.map fun fc =>
    (fc,
      let es := pubBuf.filterMap fun buf => laGet buf fc
      if es = [] then 0 else meanQ es)

/-- The rolling-buffer update (lines 1148-1153): append the new per-publish
average; if the length then exceeds `maxlen = int(round(averaging_period /
publish_interval))`, keep the Python slice `buffer[-maxlen:]` — which for
`maxlen = 0` is the entire buffer, so nothing is ever evicted. -/
def rollingAfter (ap pubI : ℚ) (rolling : List (List (ℚ × ℚ)))
    (newAvg : List (ℚ × ℚ)) : List (List (ℚ × ℚ)) :=
  let r := rolling ++ [newAvg]
  let m := (pyRound (ap / pubI)).toNat
  if m < r.length then pySliceLast m r else r

/-- The per-band rolling mean energy (lines 1155-1158). -/
def rollingMean (rolling : List (List (ℚ × ℚ))) (fc : ℚ) : ℚ :=
  let es := rolling.filterMap fun buf => laGet buf fc
  if es = [] then 0 else meanQ es

/-- Python `round(x)` on a real value (round half to even). -/
noncomputable def pyRoundR (x : ℝ) : ℤ :=
  if x - ⌊x⌋ < 1/2 then ⌊x⌋
  else if 1/2 < x - ⌊x⌋ then ⌊x⌋ + 1
  else if 2 ∣ ⌊x⌋ then ⌊x⌋ else ⌊x⌋ + 1

/-- Python `round(y, 1)`: one-decimal rounding of a real value. -/
noncomputable def round1R (x : ℝ) : ℝ := (pyRoundR (x * 10) : ℝ) / 10

/-- One published per-band output value (line 1159):
`round(10·log10(E), 1)` for a positive mean energy `E`, else `0.0`. -/
noncomputable def publishedVal (E : ℚ) : ℝ :=
  if 0 < E then round1R (10 * Real.logb 10 (E : ℝ)) else 0

theorem pyRoundR_dist (x : ℝ) : |(pyRoundR x : ℝ) - x| ≤ 1/2 := by
  unfold pyRoundR
  have h0 : (0 : ℝ) ≤ x - ⌊x⌋ := sub_nonneg.mpr (Int.floor_le x)
  have h1 : x - ⌊x⌋ < 1 := by have := Int.lt_floor_add_one x; linarith
  split
  · rename_i h
    rw [abs_le]
    constructor <;> linarith
  · rename_i h
    push_neg at h
    split
    · rename_i h2
      rw [abs_le]
      push_cast
      constructor <;> linarith
    · rename_i h2
      push_neg at h2
      have hhalf : x - ⌊x⌋ = 1/2 := le_antisymm h2 h
      split <;> (rw [abs_le]; push_cast; constructor <;> linarith)

theorem round1R_dist (x : ℝ) : |round1R x - x| ≤ 1/20 := by
  unfold round1R
  have h := pyRoundR_dist (x * 10)
  rw [show (pyRoundR (x * 10) : ℝ) / 10 - x = ((pyRoundR (x * 10) : ℝ) - x * 10) / 10 from
    by ring]
  rw [abs_div, abs_of_pos (show (0 : ℝ) < 10 by norm_num)]
  linarith

/-- C9 counterexample: with averaging period 1 s and publish interval 3 s
(both permitted by the configuration), `maxlen = int(round(1/3)) = 0`; after
the first flush the rolling buffer holds one published average, exceeding the
`round(averaging_period/publish_interval) = 0` entries the claim allows,
because the eviction slice `buffer[-0:]` is the whole buffer. -/
theorem C9_counterexample :
    (pyRound ((1 : ℚ) / 3)).toNat = 0 ∧
    rollingAfter 1 3 [] [(100, 4)] = [[(100, 4)]] ∧
    ¬ (rollingAfter 1 3 [] [(100, 4)]).length ≤ (pyRound ((1 : ℚ) / 3)).toNat := by
  refine ⟨?_, ?_, ?_⟩
  · with_unfolding_all decide
  · with_unfolding_all decide
  · with_unfolding_all decide

theorem lastN_length_le (m : ℕ) (l : List α) : (lastN m l).length ≤ m ∨ l.length ≤ m := by
  unfold lastN
  rw [List.length_drop]
  omega

/-- C9 amended: when `maxlen = int(round(averaging_period/publish_interval))`
is at least 1, the flush leaves the rolling buffer equal to the last `maxlen`
entries of the appended sequence (so at most `maxlen` per-publish averages,
oldest evicted); and each published per-band output value is the one-decimal
rounding of `10·log10` of the arithmetic mean of the rolling buffer's linear
energies for that band — within 0.05 dB of the exact value — with 0 published
where there is no positive mean energy. -/
theorem C9_amended_rolling (ap pubI : ℚ) (rolling : List (List (ℚ × ℚ)))
    (newAvg : List (ℚ × ℚ)) (hm : 1 ≤ (pyRound (ap / pubI)).toNat) :
    rollingAfter ap pubI rolling newAvg =
      lastN (pyRound (ap / pubI)).toNat (rolling ++ [newAvg]) ∧
    (rollingAfter ap pubI rolling newAvg).length ≤ (pyRound (ap / pubI)).toNat ∧
    (∀ E : ℚ, E ≤ 0 → publishedVal E = 0) ∧
    (∀ E : ℚ, 0 < E →
      publishedVal E = round1R (10 * Real.logb 10 (E : ℝ)) ∧
      |publishedVal E - 10 * Real.logb 10 (E : ℝ)| ≤ 1/20) := by
  have heq : rollingAfter ap pubI rolling newAvg =
      lastN (pyRound (ap / pubI)).toNat (rolling ++ [newAvg]) := by
    unfold rollingAfter pySliceLast
    dsimp only
    split
    · rw [if_neg (by omega)]
    · rename_i hlt
      push_neg at hlt
      unfold lastN
      rw [Nat.sub_eq_zero_of_le hlt, List.drop_zero]
  refine ⟨heq, ?_, ?_, ?_⟩
  · rw [heq]
    unfold lastN
    rw [List.length_drop]
    omega
  · intro E hE
    unfold publishedVal
    rw [if_neg (by exact not_lt.mpr hE)]
  · intro E hE
    have hpv : publishedVal E = round1R (10 * Real.logb 10 (E : ℝ)) := by
      unfold publishedVal
      rw [if_pos hE]
    exact ⟨hpv, by rw [hpv]; exact round1R_dist _⟩

/-- Closed instance of `C9_amended_rolling`: averaging period 2 s, publish
interval 1 s (`maxlen = 2`), an empty rolling buffer and one new average. -/
theorem C9_amended_rolling_witness :
    rollingAfter 2 1 [] [(100, 4)] =
      lastN (pyRound ((2 : ℚ) / 1)).toNat ([] ++ [[(100, 4)]]) ∧
    (rollingAfter 2 1 [] [(100, 4)]).length ≤ (pyRound ((2 : ℚ) / 1)).toNat ∧
    (∀ E : ℚ, E ≤ 0 → publishedVal E = 0) ∧
    (∀ E : ℚ, 0 < E →
      publishedVal E = round1R (10 * Real.logb 10 (E : ℝ)) ∧
      |publishedVal E - 10 * Real.logb 10 (E : ℝ)| ≤ 1/20) :=
  C9_amended_rolling 2 1 [] [(100, 4)] (by with_unfolding_all decide)

/-! ## Calibration interpolation (claim C8)

Model of `build_interpolated_corr` (source lines 895-918): the control points
are sorted by frequency, each target band either takes its exact control value
(`bcorr.get(fc, ...)`) or linear interpolation of the correction in the
`log10`-frequency domain, clamped to the endpoint values outside the control
range.  Frequencies and corrections are rationals; the logarithms live in `ℝ`
via `Real.logb 10`. -/

/-- Insertion of one control point into a key-sorted list. -/
def insertPt (p : ℚ × ℚ) : List (ℚ × ℚ) → List (ℚ × ℚ)
  | [] => [p]
  | q :: l => if p.1 < q.1 then p :: q :: l else q :: insertPt p l

/-- Model of `sorted(bcorr.items())` by frequency (source line 899). -/
def sortPts (l : List (ℚ × ℚ)) : List (ℚ × ℚ) := l.foldr insertPt []

/-- The interpolation weight between two control frequencies at a target
frequency, measured in the `log10` domain (source line 912). -/
noncomputable def interpWeight (f1 f2 fc : ℚ) : ℝ :=
  (Real.logb 10 (fc : ℝ) - Real.logb 10 (f1 : ℝ)) /
    (Real.logb 10 (f2 : ℝ) - Real.logb 10 (f1 : ℝ))

/-- The search loop of `interp` (source lines 910-914): walk the sorted
points, keeping the previous one; at the first point whose log-frequency
reaches `lf`, interpolate linearly between the previous point and it.  The
trailing `return 0.0` of the source loop is the `[]` case. -/
noncomputable def interpSearch (lf : ℝ) : (ℚ × ℚ) → List (ℚ × ℚ) → ℝ
  | _, [] => 0
  | prev, c :: tl =>
    if lf ≤ Real.logb 10 (c.1 : ℝ) then
      (prev.2 : ℝ) * (1 - (lf - Real.logb 10 (prev.1 : ℝ)) /
          (Real.logb 10 (c.1 : ℝ) - Real.logb 10 (prev.1 : ℝ))) +
        (c.2 : ℝ) * ((lf - Real.logb 10 (prev.1 : ℝ)) /
          (Real.logb 10 (c.1 : ℝ) - Real.logb 10 (prev.1 : ℝ)))
    else interpSearch lf c tl

/-- Model of `interp(fc)` (source lines 903-914) over the sorted control points:
clamp to the first value at or below the lowest log-frequency, to the last
value at or above the highest, otherwise search for the enclosing interval. -/
noncomputable def interp (cps : List (ℚ × ℚ)) (fc : ℚ) : ℝ :=
  match cps with
  | [] => 0
  | c0 :: tl =>
    if Real.logb 10 (fc : ℝ) ≤ Real.logb 10 (c0.1 : ℝ) then (c0.2 : ℝ)
    else if Real.logb 10 (((c0 :: tl).getLast (by simp)).1 : ℝ) ≤
        Real.logb 10 (fc : ℝ) then
      (((c0 :: tl).getLast (by simp)).2 : ℝ)
    else interpSearch (Real.logb 10 (fc : ℝ)) c0 tl

/-- The correction for one target band (source line 917):
`bcorr.get(fc, interp(fc))`. -/
noncomputable def corrAt (bcorr : List (ℚ × ℚ)) (fc : ℚ) : ℝ :=
  match laGet bcorr fc with
  | some v => (v : ℝ)
  | none => interp (sortPts bcorr) fc

/-- Model of `build_interpolated_corr` (source lines 895-918): zero correction for
every target when there are no control points, else per-target `corrAt`. -/
noncomputable def build_interpolated_corr (bcorr : List (ℚ × ℚ))
    (targets : List ℚ) : List (ℚ × ℝ) :=
  if bcorr = [] then targets.map fun fc => (fc, 0)
  else targets.map fun fc => (fc, corrAt bcorr fc)

theorem insertPt_head (p : ℚ × ℚ) (l : List (ℚ × ℚ)) (h : ∀ q ∈ l, p.1 < q.1) :
    insertPt p l = p :: l := by
  cases l with
  | nil => rfl
  | cons q l => exact if_pos (h q (by simp))

/-- Sorting already-sorted control points is the identity: a strictly
key-sorted list represents the calibration dict faithfully. -/
theorem sortPts_id (l : List (ℚ × ℚ)) (h : l.Pairwise fun p q => p.1 < q.1) :
    sortPts l = l := by
  induction l with
  | nil => rfl
  | cons p l ih =>
    have : sortPts (p :: l) = insertPt p (sortPts l) := rfl
    rw [this, ih (List.Pairwise.of_cons h), insertPt_head]
    exact fun q hq => List.rel_of_pairwise_cons h hq

theorem laGet_eq_none (l : List (ℚ × ℚ)) (fc : ℚ) (h : laGet l fc = none) :
    ∀ p ∈ l, p.1 ≠ fc := by
  induction l with
  | nil => simp
  | cons q l ih =>
    intro p hp
    by_cases hq : q.1 = fc
    · exfalso
      unfold laGet at h
      rw [if_pos hq] at h
      exact Option.noConfusion h
    · unfold laGet at h
      rw [if_neg hq] at h
      cases hp with
      | head => exact hq
      | tail _ hp => exact ih h p hp

theorem sorted_le_getLast :
    ∀ (l : List (ℚ × ℚ)), (l.Pairwise fun p q => p.1 < q.1) →
      ∀ (hne : l ≠ []), ∀ p ∈ l, p.1 ≤ (l.getLast hne).1
  | [] => by simp
  | [q] => by
    intro h hne p hp
    simp only [List.mem_singleton] at hp
    subst hp
    rfl
  | q :: r :: l2 => by
    intro h hne p hp
    have hlne : r :: l2 ≠ [] := by simp
    rw [List.getLast_cons hlne]
    rcases List.mem_cons.mp hp with hp | hp
    · subst hp
      exact le_of_lt (List.rel_of_pairwise_cons h (List.getLast_mem hlne))
    · exact sorted_le_getLast (r :: l2) (List.Pairwise.of_cons h) hlne p hp
theorem logbQ_lt (x y : ℚ) (hx : 0 < x) (hxy : x < y) :
    Real.logb 10 (x : ℝ) < Real.logb 10 (y : ℝ) :=
  Real.logb_lt_logb (by norm_num) (by exact_mod_cast hx) (by exact_mod_cast hxy)

theorem logbQ_le (x y : ℚ) (hx : 0 < x) (hxy : x ≤ y) :
    Real.logb 10 (x : ℝ) ≤ Real.logb 10 (y : ℝ) :=
  Real.logb_le_logb_of_le (by norm_num) (by exact_mod_cast hx) (by exact_mod_cast hxy)

theorem interpSearch_append (lf : ℝ) :
    ∀ (u : List (ℚ × ℚ)) (prev : ℚ × ℚ) (rest : List (ℚ × ℚ)),
      (∀ p ∈ u, Real.logb 10 (p.1 : ℝ) < lf) →
      interpSearch lf prev (u ++ rest) =
        interpSearch lf ((prev :: u).getLast (by simp)) rest
  | [], prev, rest => by
    intro _
    rfl
  | q :: u, prev, rest => by
    intro hu
    have hq : ¬ lf ≤ Real.logb 10 (q.1 : ℝ) := not_le.mpr (hu q (by simp))
    have hstep : interpSearch lf prev ((q :: u) ++ rest) = interpSearch lf q (u ++ rest) := by
      show interpSearch lf prev (q :: (u ++ rest)) = _
      rw [interpSearch, if_neg hq]
    rw [hstep, interpSearch_append lf u q rest (fun p hp => hu p (by simp [hp]))]
    rfl
theorem interp_low (c0 : ℚ × ℚ) (tl : List (ℚ × ℚ)) (fc : ℚ) (hfc : 0 < fc)
    (hle : fc ≤ c0.1) : interp (c0 :: tl) fc = (c0.2 : ℝ) := by
  simp only [interp]
  rw [if_pos (logbQ_le fc c0.1 hfc hle)]

theorem interp_high (c0 : ℚ × ℚ) (tl : List (ℚ × ℚ)) (fc : ℚ)
    (hsort : (c0 :: tl).Pairwise fun p q => p.1 < q.1)
    (hpos : ∀ p ∈ c0 :: tl, 0 < p.1)
    (hgt : ((c0 :: tl).getLast (by simp)).1 < fc) :
    interp (c0 :: tl) fc = (((c0 :: tl).getLast (by simp)).2 : ℝ) := by
  have hsl : (0 : ℚ) < ((c0 :: tl).getLast (by simp)).1 :=
    hpos _ (List.getLast_mem (by simp))
  have hc0 : 0 < c0.1 := hpos c0 (by simp)
  have hfc : 0 < fc := lt_trans hsl hgt
  have hc0le : c0.1 ≤ ((c0 :: tl).getLast (by simp)).1 :=
    sorted_le_getLast (c0 :: tl) hsort (by simp) c0 (by simp)
  simp only [interp]
  rw [if_neg (not_le.mpr (logbQ_lt c0.1 fc hc0 (lt_of_le_of_lt hc0le hgt))),
    if_pos (logbQ_le _ fc hsl (le_of_lt hgt))]

theorem interp_mid (l1 : List (ℚ × ℚ)) (f1 v1 f2 v2 : ℚ) (l2 : List (ℚ × ℚ)) (fc : ℚ)
    (hsort : (l1 ++ (f1, v1) :: (f2, v2) :: l2).Pairwise fun p q => p.1 < q.1)
    (hpos : ∀ p ∈ l1 ++ (f1, v1) :: (f2, v2) :: l2, 0 < p.1)
    (h1 : f1 < fc) (h2 : fc < f2) :
    interp (l1 ++ (f1, v1) :: (f2, v2) :: l2) fc =
      (v1 : ℝ) * (1 - interpWeight f1 f2 fc) + (v2 : ℝ) * interpWeight f1 f2 fc := by
  have hf1pos : 0 < f1 := hpos (f1, v1) (by simp)
  have hfc : 0 < fc := lt_trans hf1pos h1
  have hf2pos : 0 < f2 := lt_trans hfc h2
  have hne : l1 ++ (f1, v1) :: (f2, v2) :: l2 ≠ [] := by simp
  have hlastge : f2 ≤ ((l1 ++ (f1, v1) :: (f2, v2) :: l2).getLast hne).1 :=
    sorted_le_getLast _ hsort hne (f2, v2) (by simp)
  have hlastpos : 0 < ((l1 ++ (f1, v1) :: (f2, v2) :: l2).getLast hne).1 :=
    hpos _ (List.getLast_mem hne)
  have hg2 : ¬ Real.logb 10 (((l1 ++ (f1, v1) :: (f2, v2) :: l2).getLast hne).1 : ℝ) ≤
      Real.logb 10 (fc : ℝ) :=
    not_le.mpr (logbQ_lt fc _ hfc (lt_of_lt_of_le h2 hlastge))
  have hsearch : interpSearch (Real.logb 10 (fc : ℝ)) (f1, v1) ((f2, v2) :: l2) =
      (v1 : ℝ) * (1 - interpWeight f1 f2 fc) + (v2 : ℝ) * interpWeight f1 f2 fc := by
    simp only [interpSearch]
    rw [if_pos (logbQ_le fc f2 hfc (le_of_lt h2))]
    rfl
  cases l1 with
  | nil =>
    simp only [List.nil_append] at hg2 ⊢
    simp only [interp]
    rw [if_neg (not_le.mpr (logbQ_lt f1 fc hf1pos h1)), if_neg hg2]
    exact hsearch
  | cons a l1p =>
    have hcross := (List.pairwise_append.mp hsort).2.2
    have hafc : a.1 < f1 := hcross a (by simp) (f1, v1) (by simp)
    simp only [List.cons_append] at hg2 ⊢
    simp only [interp]
    rw [if_neg (not_le.mpr (logbQ_lt a.1 fc (hpos a (by simp)) (lt_trans hafc h1))),
      if_neg hg2]
    have hsplit : l1p ++ (f1, v1) :: (f2, v2) :: l2 =
        (l1p ++ [(f1, v1)]) ++ ((f2, v2) :: l2) := by simp
    rw [hsplit]
    rw [interpSearch_append (Real.logb 10 (fc : ℝ)) (l1p ++ [(f1, v1)]) a _ ?hskip]
    case hskip =>
      intro p hp
      rcases List.mem_append.mp hp with hp | hp
      · have : p.1 < f1 := hcross p (by simp [hp]) (f1, v1) (by simp)
        exact logbQ_lt p.1 fc (hpos p (by simp [hp])) (lt_trans this h1)
      · simp only [List.mem_singleton] at hp
        subst hp
        exact logbQ_lt f1 fc hf1pos h1
    have hgl : ((a :: (l1p ++ [(f1, v1)])).getLast (by simp)) = (f1, v1) := by
      simp
    rw [hgl]
    exact hsearch

theorem laGet_eq_none_of (l : List (ℚ × ℚ)) (fc : ℚ) (h : ∀ p ∈ l, p.1 ≠ fc) :
    laGet l fc = none := by
  induction l with
  | nil => rfl
  | cons q l ih =>
    unfold laGet
    rw [if_neg (h q (by simp))]
    exact ih fun p hp => h p (by simp [hp])

/-- C8: for every set of calibration control points — represented as the
strictly key-sorted association list of positive control frequencies the
source builds from the calibration dict — and every requested band center, the
per-band calibration correction is: 0 for every band when no control points
exist; the exact control value at each control frequency; the first control
value for a frequency at or below the lowest control point and the last for a
frequency at or above the highest (endpoint clamping); and, for a frequency
strictly between two adjacent control points, linear interpolation in the
log10-frequency domain between them. -/
theorem C8_calibration_interpolation (bcorr : List (ℚ × ℚ)) (targets : List ℚ)
    (hsort : bcorr.Pairwise fun p q => p.1 < q.1)
    (hpos : ∀ p ∈ bcorr, 0 < p.1) :
    (bcorr = [] →
      build_interpolated_corr bcorr targets = targets.map fun fc => (fc, 0)) ∧
    (bcorr ≠ [] →
      build_interpolated_corr bcorr targets =
        targets.map fun fc => (fc, corrAt bcorr fc)) ∧
    (∀ (fc v : ℚ), laGet bcorr fc = some v → corrAt bcorr fc = (v : ℝ)) ∧
    (∀ (f0 v0 : ℚ) (tl : List (ℚ × ℚ)) (fc : ℚ), bcorr = (f0, v0) :: tl → 0 < fc → fc ≤ f0 →
      laGet bcorr fc = none → corrAt bcorr fc = (v0 : ℝ)) ∧
    (∀ (fl vl fc : ℚ) (hne : bcorr ≠ []), bcorr.getLast hne = (fl, vl) → fl ≤ fc →
      laGet bcorr fc = none → corrAt bcorr fc = (vl : ℝ)) ∧
    (∀ (l1 : List (ℚ × ℚ)) (f1 v1 f2 v2 : ℚ) (l2 : List (ℚ × ℚ)) (fc : ℚ),
      bcorr = l1 ++ (f1, v1) :: (f2, v2) :: l2 →
      f1 < fc → fc < f2 →
      corrAt bcorr fc = (v1 : ℝ) * (1 - interpWeight f1 f2 fc) +
        (v2 : ℝ) * interpWeight f1 f2 fc) := by
  refine ⟨?_, ?_, ?_, ?_, ?_, ?_⟩
  · intro h
    unfold build_interpolated_corr
    rw [if_pos h]
  · intro h
    unfold build_interpolated_corr
    rw [if_neg h]
  · intro fc v h
    simp [corrAt, h]
  · intro f0 v0 tl fc hb hfc hle hnone
    subst hb
    have hcorr : corrAt ((f0, v0) :: tl) fc = interp ((f0, v0) :: tl) fc := by
      simp [corrAt, hnone, sortPts_id _ hsort]
    rw [hcorr]
    exact interp_low (f0, v0) tl fc hfc hle
  · intro fl vl fc hne hlast hle hnone
    obtain ⟨c0, tl, rfl⟩ := List.exists_cons_of_ne_nil hne
    have hmem : (fl, vl) ∈ c0 :: tl := by
      rw [← hlast]
      exact List.getLast_mem hne
    have hkey : fl ≠ fc := by
      simpa using laGet_eq_none _ fc hnone (fl, vl) hmem
    have hlt : fl < fc := lt_of_le_of_ne hle hkey
    have hlast2 : (c0 :: tl).getLast (by simp) = (fl, vl) := hlast
    have hcorr : corrAt (c0 :: tl) fc = interp (c0 :: tl) fc := by
      simp [corrAt, hnone, sortPts_id _ hsort]
    rw [hcorr]
    have hgt : ((c0 :: tl).getLast (by simp)).1 < fc := by
      rw [hlast2]
      exact hlt
    rw [interp_high c0 tl fc hsort hpos hgt, hlast2]
  · intro l1 f1 v1 f2 v2 l2 fc hb h1 h2
    subst hb
    have hrest := (List.pairwise_append.mp hsort).2.1
    have hcross := (List.pairwise_append.mp hsort).2.2
    have hnone : laGet (l1 ++ (f1, v1) :: (f2, v2) :: l2) fc = none := by
      apply laGet_eq_none_of
      intro p hp
      rcases List.mem_append.mp hp with hp | hp
      · exact ne_of_lt (lt_trans (hcross p hp (f1, v1) (by simp)) h1)
      · rcases List.mem_cons.mp hp with hp | hp
        · rw [hp]
          exact ne_of_lt h1
        · rcases List.mem_cons.mp hp with hp | hp
          · rw [hp]
            exact ne_of_gt h2
          · have hf2p : f2 < p.1 :=
              List.rel_of_pairwise_cons (List.Pairwise.of_cons hrest) hp
            exact ne_of_gt (lt_trans h2 hf2p)
    have hcorr : corrAt (l1 ++ (f1, v1) :: (f2, v2) :: l2) fc =
        interp (l1 ++ (f1, v1) :: (f2, v2) :: l2) fc := by
      simp [corrAt, hnone, sortPts_id _ hsort]
    rw [hcorr]
    exact interp_mid l1 f1 v1 f2 v2 l2 fc hsort hpos h1 h2

/-- Closed instance of `C8_calibration_interpolation` at the control points
`{100 ↦ 1, 1000 ↦ 3}`: interpolation between the points at 500 Hz, the exact
value at 100 Hz, endpoint clamping at 50 Hz and 5000 Hz, and zero correction
with no control points. -/
theorem C8_calibration_interpolation_witness :
    corrAt [(100, 1), (1000, 3)] 500 =
      ((1 : ℚ) : ℝ) * (1 - interpWeight 100 1000 500) +
        ((3 : ℚ) : ℝ) * interpWeight 100 1000 500 ∧
    corrAt [(100, 1), (1000, 3)] 100 = ((1 : ℚ) : ℝ) ∧
    corrAt [(100, 1), (1000, 3)] 50 = ((1 : ℚ) : ℝ) ∧
    corrAt [(100, 1), (1000, 3)] 5000 = ((3 : ℚ) : ℝ) ∧
    build_interpolated_corr [] [500] = ([500] : List ℚ).map (fun fc => (fc, 0)) := by
  have h := C8_calibration_interpolation [(100, 1), (1000, 3)] [500]
    (by with_unfolding_all decide) (by with_unfolding_all decide)
  have h0 := C8_calibration_interpolation [] [500] (by simp) (by simp)
  refine ⟨?_, ?_, ?_, ?_, h0.1 rfl⟩
  · exact h.2.2.2.2.2 [] 100 1 1000 3 [] 500 rfl (by norm_num) (by norm_num)
  · exact h.2.2.1 100 1 (by with_unfolding_all decide)
  · exact h.2.2.2.1 100 1 [(1000, 3)] 50 rfl (by norm_num) (by norm_num)
      (by with_unfolding_all decide)
  · exact h.2.2.2.2.1 1000 3 5000 (by simp) rfl (by norm_num)
      (by with_unfolding_all decide)

end WpAudio
